import Mathlib

/-!
Verification of the direct-collocation transcription implemented in
src/2_Direct_Collocation.ipynb: time grids, decision-variable sizes,
trapezoidal collocation constraints, Simpson quadrature weights, the
Hermite-Simpson objective, boundary constraints, and the Hermite-Simpson
dynamics-constraint loop.

Real-valued NumPy/CasADi expressions are embedded as functions into `ℚ`
(every numeric literal in the notebook is rational); a symbolic equality
constraint `lhs == rhs` accumulated by `opti.subject_to` is embedded as the
pair `(lhs, rhs)`, and the list of constraints produced by a loop is
embedded as the concatenation, in program order, of the constraints each
iteration adds.  Decision variables (whose values are chosen by the
external solver) are embedded as arbitrary functions from grid index to
value.
-/

namespace TrajOpt

/-- Embedding of `numpy.linspace a b num`: `num` evenly spaced samples
from `a` to `b` inclusive (entry `i` is `a + (b - a) * i / (num - 1)`). -/
def linspace (a b : ℚ) (num : ℕ) : List ℚ :=
  (List.range num).map fun i : ℕ => a + (b - a) * (i : ℚ) / ((num : ℚ) - 1)

/-- Record of the trapezoidal block-move decision variables and time grid:
`X = opti.variable(N+1)`, `V = opti.variable(N+1)`, `U = opti.variable(N+1)`,
`t = np.linspace(0, tf, N+1)`.  Only the sizes of the symbolic variables are
recorded; their values are decided by the external solver. -/
structure TrapSetup where
  Xdim : ℕ
  Vdim : ℕ
  Udim : ℕ
  t : List ℚ

/-- Embedding of the trapezoidal decision-variable / time-discretization cell. -/
def mkTrapSetup (tf : ℚ) (N : ℕ) : TrapSetup :=
  ⟨N + 1, N + 1, N + 1, linspace 0 tf (N + 1)⟩

/-- Record of the Hermite-Simpson decision variables and time grid:
`X = opti.variable(nx, 2*N+1)`, `U = opti.variable(nu, 2*N+1)`,
`t = np.linspace(0, tf, 2*N+1)`. -/
structure HSSetup where
  Xrows : ℕ
  Xcols : ℕ
  Urows : ℕ
  Ucols : ℕ
  t : List ℚ

/-- Embedding of the Hermite-Simpson decision-variable / time-discretization
cell (block move: `nx = 2`, `nu = 1`, `N = 10`; cart-pole: `nx = 4`, `nu = 1`,
`N = 25`). -/
def mkHSSetup (tf : ℚ) (N nx nu : ℕ) : HSSetup :=
  ⟨nx, 2 * N + 1, nu, 2 * N + 1, linspace 0 tf (2 * N + 1)⟩

/-- Embedding of the trapezoidal collocation-constraint loop
(`for i in range(N)`): iteration `i` adds, in order,
`x_right - x_left == 0.5*tf/N*(v_right + v_left)` and
`v_right - v_left == 0.5*tf/N*(u_right + u_left)`. -/
def trapDynConstraints (tf : ℚ) (N : ℕ) (X V U : ℕ → ℚ) : List (ℚ × ℚ) :=
  (List.range N).flatMap fun i =>
    [ (X (i + 1) - X i, 0.5 * tf / N * (V (i + 1) + V i)),
      (V (i + 1) - V i, 0.5 * tf / N * (U (i + 1) + U i)) ]

/-- Embedding of the trapezoidal boundary-constraint cell:
`X[0] == 0`, `X[N] == 1`, `V[0] == 0`, `V[N] == 0` (with `N = 20` in the
notebook). -/
def blockBoundaryConstraints (N : ℕ) (X V : ℕ → ℚ) : List (ℚ × ℚ) :=
  [(X 0, 0), (X N, 1), (V 0, 0), (V N, 0)]

/-- Embedding of the Simpson quadrature coefficient vector built by the
notebook: `simp = [4*(i%2)+2*((i+1)%2) for i in range(2*N+1)]`, then
`simp[0][0] = 1` and `simp[0][-1] = 1`. -/
def simpVec (N : ℕ) : List ℕ :=
  (((List.range (2 * N + 1)).map fun i => 4 * (i % 2) + 2 * ((i + 1) % 2)).set 0 1).set
    (2 * N) 1

/-- Embedding of `ca.dot` on equal-length vectors. -/
def caDot (a b : List ℚ) : ℚ :=
  (List.zipWith (fun x y => x * y) a b).sum

/-- Embedding of the Hermite-Simpson objective cell:
`J = ca.dot(simp, U[:,:]*U[:,:])` (the control has a single row in both
notebook examples, so the elementwise square of `U` is the vector of
squared controls). -/
def hsObjective (N : ℕ) (U : ℕ → ℚ) : ℚ :=
  caDot ((simpVec N).map fun w : ℕ => (w : ℚ))
    ((List.range (2 * N + 1)).map fun i => U i * U i)

/-- Stated from the spec's words, for comparison with `hsObjective`: the
objective the spec describes, namely the Simpson-weighted sum of squared
controls scaled by `h/3` with `h = tf/(2N)`. -/
def specClaimedObjective (tf : ℚ) (N : ℕ) (U : ℕ → ℚ) : ℚ :=
  tf / (2 * N) / 3 * hsObjective N U

/-- Clean per-index Simpson weight (1 at the endpoints, 4 at interior odd
indices, 2 at interior even indices), used to restate `simpVec`. -/
def simpWeight (N i : ℕ) : ℕ :=
  if i = 0 ∨ i = 2 * N then 1 else if i % 2 = 1 then 4 else 2

/-- A boundary pin constraint: the state column at grid index `idx` is
constrained componentwise to the vector `val`; embedding of
`opti.subject_to( X[:,idx] == val )`. -/
structure PinConstraint (nx : ℕ) where
  idx : ℕ
  val : Fin nx → ℚ

/-- Satisfaction of a pin constraint by a state trajectory. -/
def pinHolds {nx : ℕ} (X : ℕ → Fin nx → ℚ) (c : PinConstraint nx) : Prop :=
  ∀ j, X c.idx j = c.val j

/-- Embedding of the boundary-constraint cell of the Hermite-Simpson
examples: `opti.subject_to( X[:,0] == x_init )` and
`opti.subject_to( X[:,-1] == x_final )`, where column `-1` of a matrix with
`npts` columns is column `npts - 1`. -/
def boundaryConstraints (nx npts : ℕ) (xinit xfinal : Fin nx → ℚ) :
    List (PinConstraint nx) :=
  [⟨0, xinit⟩, ⟨npts - 1, xfinal⟩]

/-- Embedding of the index set actually executed by the Hermite-Simpson
dynamics-constraints loop: `for i in range(2*N+1): if i%2 != 0: ...`. -/
def hsLoopIndices (N : ℕ) : List ℕ :=
  (List.range (2 * N + 1)).filter fun i => i % 2 != 0

/-- Cubic Hermite interpolant on the interval `[0, h]` taking value `x0`
with derivative `f0` at `0` and value `x1` with derivative `f1` at `h`
(standard monomial form; see the endpoint lemmas below). -/
def hermiteInterp (h x0 x1 f0 f1 τ : ℚ) : ℚ :=
  x0 + f0 * τ + (3 * (x1 - x0) - h * (2 * f0 + f1)) * τ ^ 2 / h ^ 2 +
    (2 * (x0 - x1) + h * (f0 + f1)) * τ ^ 3 / h ^ 3

/-- Derivative in `τ` of the cubic Hermite interpolant. -/
def hermiteDeriv (h x0 x1 f0 f1 τ : ℚ) : ℚ :=
  f0 + 2 * (3 * (x1 - x0) - h * (2 * f0 + f1)) * τ / h ^ 2 +
    3 * (2 * (x0 - x1) + h * (f0 + f1)) * τ ^ 2 / h ^ 3

/-- The two constraints iteration `i` of the Hermite-Simpson
dynamics-constraints loop adds for odd `i` (each an equality of
`nx`-vectors, written as a `(lhs, rhs)` pair): the interpolation constraint
equating the midpoint state column to the cubic Hermite interpolant of the
left/right states and dynamics derivatives evaluated at the segment
midpoint, and the collocation constraint equating the dynamics derivative
at the midpoint to the interpolant's derivative there.  The segment
duration is `t[i+1] - t[i-1] = tf/N`. -/
def hsConstraintPair (tf : ℚ) (N nx nu : ℕ)
    (f : (Fin nx → ℚ) → (Fin nu → ℚ) → Fin nx → ℚ)
    (X : ℕ → Fin nx → ℚ) (U : ℕ → Fin nu → ℚ) (i : ℕ) :
    List ((Fin nx → ℚ) × (Fin nx → ℚ)) :=
  [ (X i, fun j => hermiteInterp (tf / N) (X (i - 1) j) (X (i + 1) j)
      (f (X (i - 1)) (U (i - 1)) j) (f (X (i + 1)) (U (i + 1)) j) (tf / N / 2)),
    (f (X i) (U i), fun j => hermiteDeriv (tf / N) (X (i - 1) j) (X (i + 1) j)
      (f (X (i - 1)) (U (i - 1)) j) (f (X (i + 1)) (U (i + 1)) j) (tf / N / 2)) ]

/-- Modelled from the spec: the interpolation- and collocation-constraint
bodies are left as `TODO` exercises in both Hermite-Simpson cells of the
notebook, so they are modelled here from the spec's words (cubic Hermite
interpolation and midpoint collocation, the referenced tutorial's equations
(4.3)/(4.4) and (6.11)/(6.12)).  The loop structure — `for i in
range(2*N+1): if i%2 != 0:` with columns `i-1`, `i`, `i+1` of `X` and `U`
— is taken from the source. -/
def hsDynConstraints (tf : ℚ) (N nx nu : ℕ)
    (f : (Fin nx → ℚ) → (Fin nu → ℚ) → Fin nx → ℚ)
    (X : ℕ → Fin nx → ℚ) (U : ℕ → Fin nu → ℚ) :
    List ((Fin nx → ℚ) × (Fin nx → ℚ)) :=
  (List.range (2 * N + 1)).flatMap fun i =>
    if i % 2 ≠ 0 then hsConstraintPair tf N nx nu f X U i else []

/-- Construction-time failure classes described by the spec. -/
inductive BuildError where
  | configurationError
  | dimensionError
deriving DecidableEq

/-- A fully constructed transcription problem (segment count, declared
dimensions, and the time grid). -/
structure Problem where
  N : ℕ
  nx : ℕ
  nu : ℕ
  tgrid : List ℚ

/-- Modelled from the spec: the notebook performs no input validation (its
parameters are hard-coded constants), so the construction-time edge-case
policy of the spec is modelled here: a transcription constructor that
rejects a non-positive segment count with `configurationError`, rejects a
mismatch between the dynamics-function signature dimensions
(`fSigNx`, `fSigNu`) and the declared `nx`/`nu` with `dimensionError`, and
otherwise returns the fully constructed problem; an error result carries no
problem value. -/
def mkProblem (N : ℤ) (nx nu fSigNx fSigNu : ℕ) (tf : ℚ) : Except BuildError Problem :=
  if N ≤ 0 then Except.error BuildError.configurationError
  else if fSigNx ≠ nx ∨ fSigNu ≠ nu then Except.error BuildError.dimensionError
  else Except.ok ⟨N.toNat, nx, nu, linspace 0 tf (2 * N.toNat + 1)⟩

/-- Cart-pole scenario constant of the notebook cell: horizon `tf = 2.0`. -/
def cartTf : ℚ := 2

/-- Cart-pole scenario constant of the notebook cell: `N = 25` segments. -/
def cartN : ℕ := 25

/-- Cart-pole scenario constant of the notebook cell: `u_max = 10.0`. -/
def uMax : ℚ := 10

/-- Cart-pole scenario constant of the notebook cell: `d_max = 2.0`. -/
def dMax : ℚ := 2

/-- Satisfaction of a bounded path constraint `(lo, expr, hi)`, the
embedding of `opti.bounded(lo, expr, hi)`. -/
def boundedHolds (c : ℚ × ℚ × ℚ) : Prop :=
  c.1 ≤ c.2.1 ∧ c.2.1 ≤ c.2.2

/-- Modelled from the spec: both path-constraint cells are `TODO` in the
notebook (state bound (6.13) with `d_max`, control bound (6.14) with
`u_max`), so they are modelled from the spec's words: the cart position
(state component 0) is bounded by `±d_max` and the control by `±u_max`
pointwise at every one of the `2N+1` grid points. -/
def cartPathConstraints (N : ℕ) (dmax umax : ℚ)
    (X : ℕ → Fin 4 → ℚ) (U : ℕ → Fin 1 → ℚ) : List (ℚ × ℚ × ℚ) :=
  ((List.range (2 * N + 1)).map fun i => (-dmax, X i 0, dmax)) ++
    ((List.range (2 * N + 1)).map fun i => (-umax, U i 0, umax))

/-! Supporting lemmas. -/

theorem linspace_length (a b : ℚ) (num : ℕ) : (linspace a b num).length = num := by
  simp [linspace]

theorem linspace_getElem (a b : ℚ) (num i : ℕ) (h : i < num) :
    (linspace a b num)[i]? = some (a + (b - a) * i / ((num : ℚ) - 1)) := by
  rw [linspace, List.getElem?_map, List.getElem?_range h]
  rfl

/-- The list built by a loop over `range N` that appends two elements per
iteration has length `2 * N`. -/
theorem pairFlat_length {α : Type} (f g : ℕ → α) (N : ℕ) :
    ((List.range N).flatMap fun i => [f i, g i]).length = 2 * N := by
  induction N with
  | zero => rfl
  | succ n ih =>
      rw [List.range_succ, List.flatMap_append, List.length_append, ih]
      simp [Nat.mul_succ]

/-- Element `2 * i` of the two-per-iteration loop list is the first element
appended by iteration `i`. -/
theorem pairFlat_getElem_fst {α : Type} (f g : ℕ → α) (N i : ℕ) (h : i < N) :
    ((List.range N).flatMap fun i => [f i, g i])[2 * i]? = some (f i) := by
  induction N with
  | zero => omega
  | succ n ih =>
      rw [List.range_succ, List.flatMap_append, List.getElem?_append,
        pairFlat_length]
      rcases Nat.lt_or_ge i n with hi | hi
      · rw [if_pos (by omega)]
        exact ih hi
      · have hin : i = n := by omega
        subst hin
        rw [if_neg (by omega)]
        simp [pairFlat_length]

/-- Element `2 * i + 1` of the two-per-iteration loop list is the second
element appended by iteration `i`. -/
theorem pairFlat_getElem_snd {α : Type} (f g : ℕ → α) (N i : ℕ) (h : i < N) :
    ((List.range N).flatMap fun i => [f i, g i])[2 * i + 1]? = some (g i) := by
  induction N with
  | zero => omega
  | succ n ih =>
      rw [List.range_succ, List.flatMap_append, List.getElem?_append,
        pairFlat_length]
      rcases Nat.lt_or_ge i n with hi | hi
      · rw [if_pos (by omega)]
        exact ih hi
      · have hin : i = n := by omega
        subst hin
        rw [if_neg (by omega)]
        simp [pairFlat_length]

/-- On a grid starting at `0`, `linspace` is the map `i ↦ tf * i / M` over
`range (M + 1)`. -/
theorem linspace_zero_succ (tf : ℚ) (M : ℕ) :
    linspace 0 tf (M + 1) = (List.range (M + 1)).map fun i : ℕ => tf * i / M := by
  unfold linspace
  refine List.map_congr_left fun i _ => ?_
  push_cast
  ring

theorem linspace_zero_succ_getElem (tf : ℚ) (M i : ℕ) (h : i < M + 1) :
    (linspace 0 tf (M + 1))[i]? = some (tf * i / M) := by
  rw [linspace_zero_succ, List.getElem?_map, List.getElem?_range h]
  rfl

theorem linspace_zero_succ_pairwise (tf : ℚ) (M : ℕ) (htf : 0 < tf) (hM : 1 ≤ M) :
    (linspace 0 tf (M + 1)).Pairwise (· < ·) := by
  rw [linspace_zero_succ]
  refine List.Pairwise.map _ (fun a b hab => ?_) (List.pairwise_lt_range (M + 1))
  have hMpos : (0 : ℚ) < M := by exact_mod_cast Nat.lt_of_lt_of_le Nat.zero_lt_one hM
  have : (a : ℚ) < b := by exact_mod_cast hab
  exact div_lt_div_of_pos_right (by nlinarith) hMpos

/-- Elementwise characterization of the Simpson coefficient vector by the
clean weight function. -/
theorem simpVec_getElem (N i : ℕ) (hi : i < 2 * N + 1) :
    (simpVec N)[i]? = some (simpWeight N i) := by
  have hlen :
      (((List.range (2 * N + 1)).map fun k => 4 * (k % 2) + 2 * ((k + 1) % 2))).length =
        2 * N + 1 := by
    simp
  have hbase :
      (((List.range (2 * N + 1)).map fun k => 4 * (k % 2) + 2 * ((k + 1) % 2)))[i]? =
        some (4 * (i % 2) + 2 * ((i + 1) % 2)) := by
    rw [List.getElem?_map, List.getElem?_range hi]
    rfl
  by_cases h2 : 2 * N = i
  · subst h2
    simp [simpVec, List.getElem?_set, hlen, simpWeight]
  · by_cases h0 : (0 : ℕ) = i
    · subst h0
      simp [simpVec, List.getElem?_set, h2, hlen, simpWeight]
    · have hw : simpWeight N i = 4 * (i % 2) + 2 * ((i + 1) % 2) := by
        unfold simpWeight
        rw [if_neg (by omega)]
        by_cases hp : i % 2 = 1
        · rw [if_pos hp]
          omega
        · rw [if_neg hp]
          omega
      simp only [simpVec, List.getElem?_set, if_neg h2, if_neg h0]
      rw [hbase, hw]

theorem simpVec_eq_map (N : ℕ) :
    simpVec N = (List.range (2 * N + 1)).map (simpWeight N) := by
  refine List.ext_getElem? fun i => ?_
  rcases Nat.lt_or_ge i (2 * N + 1) with hi | hi
  · rw [simpVec_getElem N i hi, List.getElem?_map, List.getElem?_range hi]
    rfl
  · have h1 : (simpVec N).length ≤ i := by
      simpa [simpVec] using hi
    have h2 : ((List.range (2 * N + 1)).map (simpWeight N)).length ≤ i := by
      simpa using hi
    rw [List.getElem?_eq_none h1, List.getElem?_eq_none h2]

/-- A dot product of two elementwise maps over the same index list is the
sum of the pointwise products. -/
theorem zipWith_mul_map {α : Type} (f g : α → ℚ) (l : List α) :
    List.zipWith (fun x y => x * y) (l.map f) (l.map g) = l.map fun x => f x * g x := by
  induction l with
  | nil => rfl
  | cons a l ih => simp [ih]

theorem sum_map_range (n : ℕ) (f : ℕ → ℚ) :
    ((List.range n).map f).sum = ∑ i ∈ Finset.range n, f i := by
  induction n with
  | zero => simp
  | succ m ih =>
      rw [List.range_succ, List.map_append, List.sum_append, Finset.sum_range_succ, ih]
      simp

/-- The executed loop indices are exactly the odd numbers `2k+1`, `k < N`. -/
theorem hsLoopIndices_eq (N : ℕ) :
    hsLoopIndices N = (List.range N).map fun k => 2 * k + 1 := by
  induction N with
  | zero => rfl
  | succ n ih =>
      have e1 : List.range (2 * (n + 1) + 1) =
          List.range (2 * n + 1) ++ [2 * n + 1, 2 * n + 2] := by
        rw [show 2 * (n + 1) + 1 = (2 * n + 2) + 1 by ring, List.range_succ,
          show 2 * n + 2 = (2 * n + 1) + 1 by ring, List.range_succ]
        simp
      have ha : (2 * n + 1) % 2 = 1 := by omega
      have hb : (2 * n + 2) % 2 = 0 := by omega
      unfold hsLoopIndices at ih ⊢
      rw [e1, List.filter_append, ih, List.range_succ, List.map_append]
      simp [List.filter, ha, hb]

theorem hermiteInterp_left (h x0 x1 f0 f1 : ℚ) :
    hermiteInterp h x0 x1 f0 f1 0 = x0 := by
  simp [hermiteInterp]

theorem hermiteInterp_right (h x0 x1 f0 f1 : ℚ) (hh : h ≠ 0) :
    hermiteInterp h x0 x1 f0 f1 h = x1 := by
  field_simp [hermiteInterp]
  ring

theorem hermiteDeriv_left (h x0 x1 f0 f1 : ℚ) :
    hermiteDeriv h x0 x1 f0 f1 0 = f0 := by
  simp [hermiteDeriv]

theorem hermiteDeriv_right (h x0 x1 f0 f1 : ℚ) (hh : h ≠ 0) :
    hermiteDeriv h x0 x1 f0 f1 h = f1 := by
  field_simp [hermiteDeriv]
  ring

/-- The function `hermiteDeriv` is the derivative of `hermiteInterp`. -/
theorem hermiteInterp_hasDerivAt (h x0 x1 f0 f1 τ : ℚ) :
    HasDerivAt (hermiteInterp h x0 x1 f0 f1) (hermiteDeriv h x0 x1 f0 f1 τ) τ := by
  have he : hermiteInterp h x0 x1 f0 f1 = fun t : ℚ =>
      x0 + f0 * t + ((3 * (x1 - x0) - h * (2 * f0 + f1)) / h ^ 2) * t ^ 2 +
        ((2 * (x0 - x1) + h * (f0 + f1)) / h ^ 3) * t ^ 3 := by
    funext t
    unfold hermiteInterp
    ring
  rw [he]
  have hd := (((hasDerivAt_const τ x0).add ((hasDerivAt_id τ).const_mul f0)).add
    ((hasDerivAt_pow 2 τ).const_mul ((3 * (x1 - x0) - h * (2 * f0 + f1)) / h ^ 2))).add
    ((hasDerivAt_pow 3 τ).const_mul ((2 * (x0 - x1) + h * (f0 + f1)) / h ^ 3))
  convert hd using 1
  unfold hermiteDeriv
  push_cast
  ring

/-- At the midpoint the Hermite interpolant takes the classic value
`(x0 + x1)/2 + (h/8)(f0 - f1)`. -/
theorem hermiteInterp_mid (h x0 x1 f0 f1 : ℚ) (hh : h ≠ 0) :
    hermiteInterp h x0 x1 f0 f1 (h / 2) = (x0 + x1) / 2 + h / 8 * (f0 - f1) := by
  field_simp [hermiteInterp]
  ring

/-- At the midpoint the Hermite interpolant's derivative takes the classic
value `(3/(2h))(x1 - x0) - (f0 + f1)/4`. -/
theorem hermiteDeriv_mid (h x0 x1 f0 f1 : ℚ) (hh : h ≠ 0) :
    hermiteDeriv h x0 x1 f0 f1 (h / 2) = 3 / (2 * h) * (x1 - x0) - (f0 + f1) / 4 := by
  field_simp [hermiteDeriv]
  ring

/-- Matching the dynamics derivative `fm` to the interpolant's midpoint
derivative is exactly Simpson's rule consistency condition. -/
theorem collocation_iff_simpson (h x0 x1 f0 f1 fm : ℚ) (hh : h ≠ 0) :
    fm = hermiteDeriv h x0 x1 f0 f1 (h / 2) ↔
      x1 - x0 = h / 6 * (f0 + 4 * fm + f1) := by
  rw [hermiteDeriv_mid h x0 x1 f0 f1 hh]
  constructor
  · intro H
    rw [H]
    field_simp
    ring
  · intro H
    rw [H]
    field_simp
    ring

/-- A loop over `range (2M+1)` whose body runs only at odd indices produces
the same list as a loop over the `M` odd indices `2k+1`. -/
theorem flatMap_odd_filter {α : Type} (g : ℕ → List α) (M : ℕ) :
    ((List.range (2 * M + 1)).flatMap fun i => if i % 2 ≠ 0 then g i else []) =
      (List.range M).flatMap fun k => g (2 * k + 1) := by
  induction M with
  | zero => rfl
  | succ n ih =>
      have e1 : List.range (2 * (n + 1) + 1) =
          List.range (2 * n + 1) ++ [2 * n + 1, 2 * n + 2] := by
        rw [show 2 * (n + 1) + 1 = (2 * n + 2) + 1 by ring, List.range_succ,
          show 2 * n + 2 = (2 * n + 1) + 1 by ring, List.range_succ]
        simp
      have ha : (2 * n + 1) % 2 = 1 := by omega
      have hb : (2 * n + 2) % 2 = 0 := by omega
      rw [e1, List.flatMap_append, ih, List.range_succ, List.flatMap_append]
      simp [ha, hb]

/-- The Hermite-Simpson constraint list is the concatenation, over segments
`k < N`, of the two constraints of midpoint `2k+1`. -/
theorem hsDynConstraints_eq (tf : ℚ) (N nx nu : ℕ)
    (f : (Fin nx → ℚ) → (Fin nu → ℚ) → Fin nx → ℚ)
    (X : ℕ → Fin nx → ℚ) (U : ℕ → Fin nu → ℚ) :
    hsDynConstraints tf N nx nu f X U =
      (List.range N).flatMap fun k => hsConstraintPair tf N nx nu f X U (2 * k + 1) :=
  flatMap_odd_filter (hsConstraintPair tf N nx nu f X U) N

/-- A loop whose every iteration contributes a two-element list produces a
list of twice the length. -/
theorem flatMap_length_two {α β : Type} (g : α → List β) (l : List α)
    (h : ∀ a, (g a).length = 2) : (l.flatMap g).length = 2 * l.length := by
  induction l with
  | nil => rfl
  | cons a l ih =>
      simp only [List.flatMap_cons, List.length_append, h a, ih, List.length_cons]
      omega

/-! Claim theorems. -/

/-- C1: for every odd grid index `i` (midpoint of a segment, with left
neighbor `i-1` and right neighbor `i+1`), the Hermite-Simpson builder
imposes both the interpolation constraint — midpoint state equals the cubic
Hermite interpolant of the left/right states and dynamics derivatives,
evaluated at the segment midpoint — and the collocation constraint — the
dynamics derivative at the midpoint equals the interpolant's derivative
there; and it imposes exactly these, two per segment (`2N` constraints in
total). -/
theorem C1_hermite_simpson_midpoint_constraints (tf : ℚ) (N nx nu : ℕ)
    (f : (Fin nx → ℚ) → (Fin nu → ℚ) → Fin nx → ℚ)
    (X : ℕ → Fin nx → ℚ) (U : ℕ → Fin nu → ℚ)
    (i : ℕ) (hodd : i % 2 = 1) (hlt : i < 2 * N + 1) :
    (X i, fun j => hermiteInterp (tf / N) (X (i - 1) j) (X (i + 1) j)
        (f (X (i - 1)) (U (i - 1)) j) (f (X (i + 1)) (U (i + 1)) j) (tf / N / 2)) ∈
      hsDynConstraints tf N nx nu f X U
  ∧ (f (X i) (U i), fun j => hermiteDeriv (tf / N) (X (i - 1) j) (X (i + 1) j)
        (f (X (i - 1)) (U (i - 1)) j) (f (X (i + 1)) (U (i + 1)) j) (tf / N / 2)) ∈
      hsDynConstraints tf N nx nu f X U
  ∧ (hsDynConstraints tf N nx nu f X U).length = 2 * N := by
  have hmem : ∀ c ∈ hsConstraintPair tf N nx nu f X U i,
      c ∈ hsDynConstraints tf N nx nu f X U := by
    intro c hc
    unfold hsDynConstraints
    refine List.mem_flatMap.2 ⟨i, List.mem_range.2 hlt, ?_⟩
    rw [if_pos (by omega)]
    exact hc
  refine ⟨hmem _ ?_, hmem _ ?_, ?_⟩
  · unfold hsConstraintPair
    exact List.mem_cons_self _ _
  · unfold hsConstraintPair
    simp
  · rw [hsDynConstraints_eq,
      flatMap_length_two (fun k => hsConstraintPair tf N nx nu f X U (2 * k + 1))
        (List.range N) (fun k => rfl)]
    simp

/-- Witness for C1 at `tf = 1`, `N = 1`, `nx = nu = 1`, `i = 1`, with
dynamics `f x u = x` and zero trajectories. -/
theorem C1_witness :
    (1 % 2 = 1 ∧ 1 < 2 * 1 + 1) ∧
    (hsDynConstraints 1 1 1 1 (fun x _ => x) (fun _ _ => (0 : ℚ))
      (fun _ _ => (0 : ℚ))).length = 2 * 1 :=
  ⟨⟨by decide, by decide⟩,
    (C1_hermite_simpson_midpoint_constraints 1 1 1 1 (fun x _ => x)
      (fun _ _ => 0) (fun _ _ => 0) 1 (by decide) (by decide)).2.2⟩

/-- C2 (amended): the Hermite-Simpson objective is the plain dot product of
the Simpson weight vector with the pointwise squared controls — weight 1 at
the endpoints, 4 at interior odd indices, 2 at interior even indices — with
no `h/3` scaling. -/
theorem C2_hs_objective_unscaled (N : ℕ) (U : ℕ → ℚ) :
    hsObjective N U = ∑ i ∈ Finset.range (2 * N + 1), (simpWeight N i : ℚ) * U i ^ 2 := by
  unfold hsObjective caDot
  rw [simpVec_eq_map, List.map_map, zipWith_mul_map, sum_map_range]
  refine Finset.sum_congr rfl fun i _ => ?_
  simp only [Function.comp]
  ring

/-- C2 counterexample: at `tf = 1`, `N = 1`, `U ≡ 1` the objective built by
the code equals `6`, while the `h/3`-scaled Simpson quadrature the claim
describes equals `1`; the code's objective is not scaled by `h/3`. -/
theorem C2_counterexample :
    hsObjective 1 (fun _ => 1) ≠ specClaimedObjective 1 1 (fun _ => 1) := by
  have h1 : hsObjective 1 (fun _ => 1) = 6 := by
    norm_num [hsObjective, caDot, simpVec, List.range_succ]
  have h2 : specClaimedObjective 1 1 (fun _ => 1) = 1 := by
    rw [specClaimedObjective, h1]
    norm_num
  rw [h1, h2]
  norm_num

/-- C3: in the trapezoidal transcription with `N` segments and horizon `tf`,
the constraint loop imposes exactly two equality constraints for every
adjacent grid-point pair `(i, i+1)` with `i < N`, namely
`x[i+1] - x[i] = (h/2)(v[i+1] + v[i])` and
`v[i+1] - v[i] = (h/2)(u[i+1] + u[i])` with `h = tf/N`: the constraint list
has length `2N`, and positions `2i` and `2i+1` hold exactly those two
constraints. -/
theorem C3_trapezoidal_collocation_constraints (tf : ℚ) (N : ℕ) (X V U : ℕ → ℚ)
    (i : ℕ) (h : i < N) :
    (trapDynConstraints tf N X V U).length = 2 * N
  ∧ (trapDynConstraints tf N X V U)[2 * i]? =
      some (X (i + 1) - X i, tf / N / 2 * (V (i + 1) + V i))
  ∧ (trapDynConstraints tf N X V U)[2 * i + 1]? =
      some (V (i + 1) - V i, tf / N / 2 * (U (i + 1) + U i)) := by
  refine ⟨pairFlat_length _ _ N, ?_, ?_⟩
  · exact (pairFlat_getElem_fst
      (fun k => (X (k + 1) - X k, 0.5 * tf / (N : ℚ) * (V (k + 1) + V k)))
      (fun k => (V (k + 1) - V k, 0.5 * tf / (N : ℚ) * (U (k + 1) + U k)))
      N i h).trans (congrArg some (Prod.ext rfl (by ring)))
  · exact (pairFlat_getElem_snd
      (fun k => (X (k + 1) - X k, 0.5 * tf / (N : ℚ) * (V (k + 1) + V k)))
      (fun k => (V (k + 1) - V k, 0.5 * tf / (N : ℚ) * (U (k + 1) + U k)))
      N i h).trans (congrArg some (Prod.ext rfl (by ring)))

/-- Witness for C3 at `tf = 1`, `N = 2`, `i = 0`, with `X k = k²`, `V k = k`,
`U k = 1`. -/
theorem C3_witness :
    (0 < 2 ∧ True) ∧
    (trapDynConstraints 1 2 (fun k => (k : ℚ) ^ 2) (fun k => (k : ℚ)) (fun _ => 1)).length
        = 2 * 2
  ∧ (trapDynConstraints 1 2 (fun k => (k : ℚ) ^ 2) (fun k => (k : ℚ)) (fun _ => 1))[2 * 0]? =
      some (((0 : ℕ) + 1 : ℚ) ^ 2 - ((0 : ℕ) : ℚ) ^ 2,
        (1 : ℚ) / (2 : ℕ) / 2 * (((0 : ℕ) + 1 : ℚ) + ((0 : ℕ) : ℚ)))
  ∧ (trapDynConstraints 1 2 (fun k => (k : ℚ) ^ 2) (fun k => (k : ℚ)) (fun _ => 1))[2 * 0 + 1]? =
      some (((0 : ℕ) + 1 : ℚ) - ((0 : ℕ) : ℚ), (1 : ℚ) / (2 : ℕ) / 2 * (1 + 1)) :=
  ⟨⟨by decide, trivial⟩,
    by
      have h := C3_trapezoidal_collocation_constraints 1 2
        (fun k => (k : ℚ) ^ 2) (fun k => (k : ℚ)) (fun _ => 1) 0 (by decide)
      refine ⟨h.1, ?_, ?_⟩
      · exact h.2.1.trans (by norm_num)
      · exact h.2.2.trans (by norm_num)⟩

/-- C4: for the trapezoidal scheme with `N ≥ 1` segments over horizon
`tf > 0`, the time grid has exactly `N+1` points, starts at `0`, ends at
`tf`, has consecutive spacing exactly `tf/N`, is strictly increasing, and
the three decision-variable vectors each have `N+1` entries. -/
theorem C4_trapezoidal_grid (tf : ℚ) (N : ℕ) (htf : 0 < tf) (hN : 1 ≤ N) :
    (mkTrapSetup tf N).t.length = N + 1
  ∧ (mkTrapSetup tf N).t[0]? = some 0
  ∧ (mkTrapSetup tf N).t[N]? = some tf
  ∧ (∀ i : ℕ, i < N → ∃ a b : ℚ, (mkTrapSetup tf N).t[i]? = some a ∧
      (mkTrapSetup tf N).t[i + 1]? = some b ∧ b - a = tf / N ∧ a < b)
  ∧ (mkTrapSetup tf N).t.Pairwise (· < ·)
  ∧ (mkTrapSetup tf N).Xdim = N + 1
  ∧ (mkTrapSetup tf N).Vdim = N + 1
  ∧ (mkTrapSetup tf N).Udim = N + 1 := by
  have hNQ : ((N : ℚ)) ≠ 0 := Nat.cast_ne_zero.2 (by omega)
  have hNQpos : (0 : ℚ) < N := by exact_mod_cast Nat.lt_of_lt_of_le Nat.zero_lt_one hN
  refine ⟨linspace_length 0 tf (N + 1), ?_, ?_, ?_, ?_, rfl, rfl, rfl⟩
  · rw [show (mkTrapSetup tf N).t = linspace 0 tf (N + 1) from rfl,
      linspace_zero_succ_getElem tf N 0 (by omega)]
    norm_num
  · rw [show (mkTrapSetup tf N).t = linspace 0 tf (N + 1) from rfl,
      linspace_zero_succ_getElem tf N N (by omega)]
    rw [mul_div_assoc, div_self hNQ, mul_one]
  · intro i hi
    refine ⟨tf * i / N, tf * (i + 1 : ℕ) / N, ?_, ?_, ?_, ?_⟩
    · exact linspace_zero_succ_getElem tf N i (by omega)
    · exact linspace_zero_succ_getElem tf N (i + 1) (by omega)
    · push_cast
      field_simp
      ring
    · have : (i : ℚ) < ((i + 1 : ℕ) : ℚ) := by push_cast; linarith
      exact div_lt_div_of_pos_right (by nlinarith) hNQpos
  · exact linspace_zero_succ_pairwise tf N htf hN

/-- Witness for C4 at `tf = 1`, `N = 2`. -/
theorem C4_witness :
    ((0 : ℚ) < 1 ∧ 1 ≤ 2) ∧
    (mkTrapSetup 1 2).t.length = 2 + 1 ∧ (mkTrapSetup 1 2).t[2]? = some 1 :=
  ⟨⟨by decide, by decide⟩,
    (C4_trapezoidal_grid 1 2 (by decide) (by decide)).1,
    (C4_trapezoidal_grid 1 2 (by decide) (by decide)).2.2.1⟩

/-- C5: for the Hermite-Simpson (separated form) scheme with `N ≥ 1`
segments, the time grid has exactly `2N+1` points, strictly increasing from
`0` to `tf`, and the state and control variable trajectories each have
`2N+1` columns. -/
theorem C5_hermite_simpson_grid (tf : ℚ) (N nx nu : ℕ) (htf : 0 < tf) (hN : 1 ≤ N) :
    (mkHSSetup tf N nx nu).t.length = 2 * N + 1
  ∧ (mkHSSetup tf N nx nu).t[0]? = some 0
  ∧ (mkHSSetup tf N nx nu).t[2 * N]? = some tf
  ∧ (mkHSSetup tf N nx nu).t.Pairwise (· < ·)
  ∧ (mkHSSetup tf N nx nu).Xcols = 2 * N + 1
  ∧ (mkHSSetup tf N nx nu).Ucols = 2 * N + 1 := by
  have hMQ : ((2 * N : ℕ) : ℚ) ≠ 0 := Nat.cast_ne_zero.2 (by omega)
  refine ⟨linspace_length 0 tf (2 * N + 1), ?_, ?_, ?_, rfl, rfl⟩
  · rw [show (mkHSSetup tf N nx nu).t = linspace 0 tf (2 * N + 1) from rfl,
      linspace_zero_succ_getElem tf (2 * N) 0 (by omega)]
    norm_num
  · rw [show (mkHSSetup tf N nx nu).t = linspace 0 tf (2 * N + 1) from rfl,
      linspace_zero_succ_getElem tf (2 * N) (2 * N) (by omega)]
    rw [mul_div_assoc, div_self hMQ, mul_one]
  · exact linspace_zero_succ_pairwise tf (2 * N) htf (by omega)

/-- Witness for C5 at `tf = 1`, `N = 1`, `nx = 2`, `nu = 1`. -/
theorem C5_witness :
    ((0 : ℚ) < 1 ∧ 1 ≤ 1) ∧
    (mkHSSetup 1 1 2 1).t.length = 2 * 1 + 1 ∧ (mkHSSetup 1 1 2 1).t[2 * 1]? = some 1 :=
  ⟨⟨by decide, by decide⟩,
    (C5_hermite_simpson_grid 1 1 2 1 (by decide) (by decide)).1,
    (C5_hermite_simpson_grid 1 1 2 1 (by decide) (by decide)).2.2.1⟩

/-- C6: for every `N ≥ 1`, the Simpson coefficient vector over `2N+1` points
has first and last entries `1`, all other odd-indexed entries `4`, and all
other even-indexed entries `2`. -/
theorem C6_simpson_weight_vector (N : ℕ) (hN : 1 ≤ N) :
    (simpVec N).length = 2 * N + 1
  ∧ (simpVec N)[0]? = some 1
  ∧ (simpVec N)[2 * N]? = some 1
  ∧ ∀ i : ℕ, 0 < i → i < 2 * N →
      (i % 2 = 1 → (simpVec N)[i]? = some 4) ∧
      (i % 2 = 0 → (simpVec N)[i]? = some 2) := by
  have hbase : ∀ i : ℕ, i < 2 * N + 1 →
      (((List.range (2 * N + 1)).map fun k => 4 * (k % 2) + 2 * ((k + 1) % 2)))[i]? =
        some (4 * (i % 2) + 2 * ((i + 1) % 2)) := by
    intro i hi
    rw [List.getElem?_map, List.getElem?_range hi]
    rfl
  have hlen :
      (((List.range (2 * N + 1)).map fun k => 4 * (k % 2) + 2 * ((k + 1) % 2))).length =
        2 * N + 1 := by
    simp
  refine ⟨by simp [simpVec], ?_, ?_, ?_⟩
  · have h1 : 2 * N ≠ 0 := by omega
    simp [simpVec, List.getElem?_set, h1, hlen]
  · simp [simpVec, List.getElem?_set, hlen]
  · intro i h0 h2N
    have hne0 : (0 : ℕ) ≠ i := by omega
    have hne2N : 2 * N ≠ i := by omega
    constructor
    · intro hpar
      have hsucc : (i + 1) % 2 = 0 := by omega
      have := hbase i (by omega)
      simp only [simpVec, List.getElem?_set, if_neg hne2N, if_neg hne0,
        List.length_set, hlen]
      rw [this, hpar, hsucc]
    · intro hpar
      have hsucc : (i + 1) % 2 = 1 := by omega
      have := hbase i (by omega)
      simp only [simpVec, List.getElem?_set, if_neg hne2N, if_neg hne0,
        List.length_set, hlen]
      rw [this, hpar, hsucc]

/-- Witness for C6 at `N = 2` (weights `[1, 4, 2, 4, 1]`). -/
theorem C6_witness :
    (1 ≤ 2) ∧ (simpVec 2)[0]? = some 1 ∧ (simpVec 2)[1]? = some 4 ∧
    (simpVec 2)[2]? = some 2 ∧ (simpVec 2)[3]? = some 4 ∧ (simpVec 2)[4]? = some 1 :=
  ⟨by decide,
    (C6_simpson_weight_vector 2 (by decide)).2.1,
    ((C6_simpson_weight_vector 2 (by decide)).2.2.2 1 (by decide) (by decide)).1 (by decide),
    ((C6_simpson_weight_vector 2 (by decide)).2.2.2 2 (by decide) (by decide)).2 (by decide),
    ((C6_simpson_weight_vector 2 (by decide)).2.2.2 3 (by decide) (by decide)).1 (by decide),
    (C6_simpson_weight_vector 2 (by decide)).2.2.1⟩

/-- C7: the boundary constraints pin the state exactly at grid index 0 (to
the initial vector) and at the last grid index (to the final vector): both
pins are imposed, every imposed pin is at index 0 or at the last index, and
joint satisfaction is equivalent to the two endpoint equalities.  The last
conjunct states the same for the scalar boundary constraints of the
trapezoidal block-move cell. -/
theorem C7_boundary_constraints (nx npts : ℕ) (xinit xfinal : Fin nx → ℚ)
    (X : ℕ → Fin nx → ℚ) (Nb : ℕ) (Xb Vb : ℕ → ℚ) :
    (⟨0, xinit⟩ : PinConstraint nx) ∈ boundaryConstraints nx npts xinit xfinal
  ∧ (⟨npts - 1, xfinal⟩ : PinConstraint nx) ∈ boundaryConstraints nx npts xinit xfinal
  ∧ (∀ c ∈ boundaryConstraints nx npts xinit xfinal, c.idx = 0 ∨ c.idx = npts - 1)
  ∧ ((∀ c ∈ boundaryConstraints nx npts xinit xfinal, pinHolds X c) ↔
      (∀ j, X 0 j = xinit j) ∧ ∀ j, X (npts - 1) j = xfinal j)
  ∧ ((∀ c ∈ blockBoundaryConstraints Nb Xb Vb, c.1 = c.2) ↔
      Xb 0 = 0 ∧ Xb Nb = 1 ∧ Vb 0 = 0 ∧ Vb Nb = 0) := by
  refine ⟨by simp [boundaryConstraints], by simp [boundaryConstraints], ?_, ?_, ?_⟩
  · intro c hc
    rcases List.mem_cons.1 hc with h | h
    · subst h
      exact Or.inl rfl
    · rcases List.mem_singleton.1 h with rfl
      exact Or.inr rfl
  · simp [boundaryConstraints, pinHolds]
  · simp [blockBoundaryConstraints, and_assoc]

/-- Witness for C7 at `nx = 1`, `npts = 3`, `xinit ≡ 0`, `xfinal ≡ 5`. -/
theorem C7_witness :
    (⟨0, fun _ => (0 : ℚ)⟩ : PinConstraint 1) ∈ boundaryConstraints 1 3 (fun _ => 0) (fun _ => 5)
  ∧ (⟨2, fun _ => (5 : ℚ)⟩ : PinConstraint 1) ∈ boundaryConstraints 1 3 (fun _ => 0) (fun _ => 5) :=
  ⟨(C7_boundary_constraints 1 3 (fun _ => 0) (fun _ => 5) (fun _ _ => 0) 0
      (fun _ => 0) (fun _ => 0)).1,
   (C7_boundary_constraints 1 3 (fun _ => 0) (fun _ => 5) (fun _ _ => 0) 0
      (fun _ => 0) (fun _ => 0)).2.1⟩

/-- C8: a non-positive segment count fails with `configurationError`; a
dimension mismatch between the dynamics signature and the declared
`nx`/`nu` fails with `dimensionError`; valid inputs yield the fully
constructed problem; and a failed construction never also returns a
(partially) constructed problem. -/
theorem C8_construction_validation (N : ℤ) (nx nu fSigNx fSigNu : ℕ) (tf : ℚ) :
    (N ≤ 0 →
      mkProblem N nx nu fSigNx fSigNu tf = Except.error BuildError.configurationError)
  ∧ (0 < N → (fSigNx ≠ nx ∨ fSigNu ≠ nu) →
      mkProblem N nx nu fSigNx fSigNu tf = Except.error BuildError.dimensionError)
  ∧ (0 < N → fSigNx = nx → fSigNu = nu →
      mkProblem N nx nu fSigNx fSigNu tf =
        Except.ok ⟨N.toNat, nx, nu, linspace 0 tf (2 * N.toNat + 1)⟩)
  ∧ (∀ e p, mkProblem N nx nu fSigNx fSigNu tf = Except.error e →
      mkProblem N nx nu fSigNx fSigNu tf ≠ Except.ok p) := by
  refine ⟨?_, ?_, ?_, ?_⟩
  · intro h
    rw [mkProblem, if_pos h]
  · intro h1 h2
    rw [mkProblem, if_neg (by omega), if_pos h2]
  · intro h1 h2 h3
    rw [mkProblem, if_neg (by omega), if_neg (by simp [h2, h3])]
  · intro e p he hok
    rw [he] at hok
    exact Except.noConfusion hok

/-- Witness for C8: zero segments is rejected with `configurationError`,
and a state-dimension mismatch (`fSigNx = 2` against `nx = 4`) is rejected
with `dimensionError`. -/
theorem C8_witness :
    ((0 : ℤ) ≤ 0 ∧
      mkProblem 0 4 1 4 1 2 = Except.error BuildError.configurationError)
  ∧ ((0 : ℤ) < 1 ∧ ((2 : ℕ) ≠ 4 ∨ (1 : ℕ) ≠ 1) ∧
      mkProblem 1 4 1 2 1 2 = Except.error BuildError.dimensionError) :=
  ⟨⟨by decide, (C8_construction_validation 0 4 1 4 1 2).1 (by decide)⟩,
   ⟨by decide, Or.inl (by decide),
    (C8_construction_validation 1 4 1 2 1 2).2.1 (by decide) (Or.inl (by decide))⟩⟩

/-- C9: in the cart-pole transcription (`N = 25`, `u_max = 10`,
`d_max = 2`), any trajectory satisfying every imposed path constraint has
`|u| ≤ 10` and cart position `|x₀| ≤ 2` at every grid point. -/
theorem C9_cartpole_path_bounds (X : ℕ → Fin 4 → ℚ) (U : ℕ → Fin 1 → ℚ)
    (hfeas : ∀ c ∈ cartPathConstraints cartN dMax uMax X U, boundedHolds c)
    (i : ℕ) (hi : i ≤ 2 * cartN) :
    |U i 0| ≤ 10 ∧ |X i 0| ≤ 2 := by
  have hiR : i ∈ List.range (2 * cartN + 1) := List.mem_range.2 (by omega)
  have h1 := hfeas (-uMax, U i 0, uMax) (by
    unfold cartPathConstraints
    exact List.mem_append_right _ (List.mem_map.2 ⟨i, hiR, rfl⟩))
  have h2 := hfeas (-dMax, X i 0, dMax) (by
    unfold cartPathConstraints
    exact List.mem_append_left _ (List.mem_map.2 ⟨i, hiR, rfl⟩))
  simp only [boundedHolds, uMax, dMax] at h1 h2
  constructor
  · exact abs_le.2 ⟨by linarith [h1.1], by linarith [h1.2]⟩
  · exact abs_le.2 ⟨by linarith [h2.1], by linarith [h2.2]⟩

/-- Witness for C9: the all-zero trajectory satisfies the path constraints,
and the theorem bounds it at grid point 0. -/
theorem C9_witness : |(0 : ℚ)| ≤ 10 ∧ |(0 : ℚ)| ≤ 2 :=
  C9_cartpole_path_bounds (fun _ _ => 0) (fun _ _ => 0)
    (by
      intro c hc
      unfold cartPathConstraints at hc
      rcases List.mem_append.1 hc with h | h <;>
        rcases List.mem_map.1 h with ⟨j, _, rfl⟩ <;>
        exact ⟨by norm_num [dMax, uMax], by norm_num [dMax, uMax]⟩)
    0 (by decide)

/-- C10: the Hermite-Simpson dynamics-constraints loop body runs only for
odd `i`, executes exactly `N` times, and every executed `i` satisfies
`1 ≤ i` and `i + 1 ≤ 2N`, so the accessed columns `i-1`, `i`, `i+1` all lie
within the `2N+1` columns of the state and control matrices. -/
theorem C10_hs_loop_indexing (N i : ℕ) (hi : i ∈ hsLoopIndices N) :
    (hsLoopIndices N).length = N ∧ i % 2 = 1 ∧ 1 ≤ i ∧ i + 1 ≤ 2 * N := by
  rw [hsLoopIndices_eq] at hi
  refine ⟨by rw [hsLoopIndices_eq]; simp, ?_⟩
  rcases List.mem_map.1 hi with ⟨k, hk, rfl⟩
  have := List.mem_range.1 hk
  omega

/-- Witness for C10 at `N = 1`, `i = 1`. -/
theorem C10_witness :
    (1 ∈ hsLoopIndices 1) ∧
    ((hsLoopIndices 1).length = 1 ∧ 1 % 2 = 1 ∧ 1 ≤ 1 ∧ 1 + 1 ≤ 2 * 1) :=
  ⟨by decide, C10_hs_loop_indexing 1 1 (by decide)⟩

end TrajOpt
